import Mathlib

/-!
# Verification of `Mandelbrot_001.py`

Shallow embedding of the escape-time Mandelbrot renderer in
`Mandelbrot_001.py`.  Complex numbers are embedded as pairs of exact
rationals (`CQ`); the Python test `abs(z) > 2` on a complex number is
embedded as `normSq z > 4`, which is equivalent for the real magnitude
(`abs z = sqrt (normSq z)` and both sides are nonnegative).  Python's
`while` loop is embedded as a fuel-based recursion whose fuel is the
exact number of remaining admissible loop passes; Python's fallible
rational division (which raises `ZeroDivisionError` on a zero divisor)
is embedded as `Option`-valued division.
-/

/-- A complex number with exact rational parts, embedding Python `complex`
for the arithmetic this program performs. -/
structure CQ where
  re : ℚ
  im : ℚ
deriving DecidableEq, Repr

instance : Add CQ := ⟨fun a b => ⟨a.re + b.re, a.im + b.im⟩⟩

instance : Mul CQ := ⟨fun a b => ⟨a.re * b.re - a.im * b.im, a.re * b.im + a.im * b.re⟩⟩

/-- Squared magnitude of a `CQ`.  The source's escape test `abs(z) > 2`
is embedded as `4 < normSq z`. -/
def CQ.normSq (z : CQ) : ℚ := z.re * z.re + z.im * z.im

/-- The `while iters <= max_iter` loop body of `iterate_fc`
(src/Mandelbrot_001.py lines 36-44).  `fuel` is the number of remaining
admissible passes, i.e. `(max_iter + 1 - iters).toNat`: the loop guard
`iters <= max_iter` holds exactly when `fuel > 0`.  Each pass first
checks `abs(z) > 2` (embedded as `4 < normSq z`) and returns
`(iters, fc)` on escape; otherwise it applies `z = z * z + c`, appends
the new `z` to `fc` and increments `iters`.  On exhaustion the source
returns `(max_iter, fc)`. -/
def iterateGo (c : CQ) (max_iter : ℤ) : ℕ → ℤ → CQ → List CQ → ℤ × List CQ
  | 0, _, _, fc => (max_iter, fc)
  | fuel + 1, iters, z, fc =>
    if 4 < z.normSq then (iters, fc)
    else iterateGo c max_iter fuel (iters + 1) (z * z + c) (fc ++ [z * z + c])

/-- Embedding of `iterate_fc` (src/Mandelbrot_001.py lines 15-44):
`iters = 0`, `z = initial_z`, `fc = [z]`, then the `while` loop. -/
def iterate_fc (c initial_z : CQ) (max_iter : ℤ) : ℤ × List CQ :=
  iterateGo c max_iter (max_iter + 1).toNat 0 initial_z [initial_z]

example : iterate_fc ⟨10, 0⟩ ⟨0, 0⟩ 1 = (1, [⟨0, 0⟩, ⟨10, 0⟩]) := by
  with_unfolding_all rfl
example : iterate_fc ⟨0, 0⟩ ⟨0, 0⟩ 0 = (0, [⟨0, 0⟩, ⟨0, 0⟩]) := by
  with_unfolding_all rfl
example : iterate_fc ⟨10, 0⟩ ⟨0, 0⟩ (-3) = (-3, [⟨0, 0⟩]) := by
  with_unfolding_all rfl
example : (iterate_fc ⟨-1, 0⟩ ⟨0, 0⟩ 5).1 = 5 := by with_unfolding_all rfl

/-- Rational division as performed by Python: raises (here: `none`) when
the divisor is zero. -/
def divOpt (a b : ℚ) : Option ℚ := if b = 0 then none else some (a / b)

/-- Embedding of `make_coordinates` (src/Mandelbrot_001.py lines 50-79).
The two `for step in range(...)` loops build the evenly spaced abscissae
and ordinates, each pass performing the fallible division
`step * (x1 - x0) / (x_steps - 1)`; the nested loops emit the row-major
(y outer, x inner) list of complex coordinates. -/
def make_coordinates (x_range y_range : ℚ × ℚ) (x_steps y_steps : ℕ) :
    Option (List CQ) := do
  let x0 := x_range.1
  let x1 := x_range.2
  let y0 := y_range.1
  let y1 := y_range.2
  let xs ← (List.range x_steps).mapM fun (step : ℕ) => do
    let d ← divOpt ((step : ℚ) * (x1 - x0)) ((x_steps : ℚ) - 1)
    pure (x0 + d)
  let ys ← (List.range y_steps).mapM fun (step : ℕ) => do
    let d ← divOpt ((step : ℚ) * (y1 - y0)) ((y_steps : ℚ) - 1)
    pure (y0 + d)
  pure (ys.flatMap fun y => xs.map fun x => CQ.mk x y)

example :
    make_coordinates (-1, 1) (-1, 1) 3 3 =
      some [⟨-1, -1⟩, ⟨0, -1⟩, ⟨1, -1⟩, ⟨-1, 0⟩, ⟨0, 0⟩, ⟨1, 0⟩,
        ⟨-1, 1⟩, ⟨0, 1⟩, ⟨1, 1⟩] := by with_unfolding_all rfl

example : make_coordinates (-1, 1) (-1, 1) 1 3 = none := by with_unfolding_all rfl
example : make_coordinates (-1, 1) (-1, 1) 0 1 = none := by with_unfolding_all rfl
example : make_coordinates (-1, 1) (-1, 1) 0 3 = some [] := by with_unfolding_all rfl

/-- Embedding of `make_set` (src/Mandelbrot_001.py lines 85-111): build
the coordinates, then for each coordinate keep only the first component
of `iterate_fc c 0 max_iter`, index-aligned. -/
def make_set (x_range y_range : ℚ × ℚ) (x_steps y_steps : ℕ)
    (max_iter : ℤ) : Option (List CQ × List ℤ) := do
  let cs ← make_coordinates x_range y_range x_steps y_steps
  let iters := cs.map fun c => (iterate_fc c ⟨0, 0⟩ max_iter).1
  pure (cs, iters)

/-- Destination path chosen by `save_figure` (src/Mandelbrot_001.py
lines 132-138) as a function of its `fname` argument and the current
timestamp string: when `fname` is `None` it derives
`images/Mandelbrot_001___<timestamp>.png`, otherwise it hands `fname`
itself to `plt.imsave`. -/
def save_figure_dest (fname : Option String) (timestamp : String) : String :=
  match fname with
  | none => "images/" ++ "Mandelbrot_001___" ++ timestamp ++ ".png"
  | some f => f

/-- Destination path that `make_figure` (src/Mandelbrot_001.py lines
146-169) causes the image sink to receive, as a function of the `fname`
argument given to `make_figure`.  Line 169 calls
`save_figure(cs, iters, x_steps, y_steps, cmap = cmap)`, not forwarding
`fname`, so `save_figure` always sees its default `fname = None`. -/
def make_figure_dest (_fname : Option String) (timestamp : String) : String :=
  save_figure_dest none timestamp

/-- The escape-time loop written from the spec's words (section 4.1):
initialize `z = initial_z`, `trajectory = [z]`, `count = 0`; while
`count <= max_iter`, if `|z| > 2` return `(count, trajectory)`,
otherwise apply `z := z*z + c`, append the new `z`, increment `count`;
if the loop exhausts without escaping return `(max_iter, trajectory)`.
Fuel counts the remaining admissible passes, `(max_iter + 1 - count).toNat`. -/
def specEvaluateGo (c : CQ) (max_iter : ℤ) : ℕ → ℤ → CQ → List CQ → ℤ × List CQ
  | 0, _, _, trajectory => (max_iter, trajectory)
  | fuel + 1, count, z, trajectory =>
    if 4 < z.normSq then (count, trajectory)
    else specEvaluateGo c max_iter fuel (count + 1) (z * z + c)
      (trajectory ++ [z * z + c])

/-- The reference check-before-step evaluator written from the spec's
words (section 4.1), to be compared with `iterate_fc`. -/
def specEvaluate (c initial_z : CQ) (max_iter : ℤ) : ℤ × List CQ :=
  specEvaluateGo c max_iter (max_iter + 1).toNat 0 initial_z [initial_z]

/-- The orbit of `z` under `fun z => z * z + c`: `orbit c z n` is the
value after `n` applications of the recurrence. -/
def orbit (c : CQ) : CQ → ℕ → CQ
  | z, 0 => z
  | z, n + 1 => orbit c (z * z + c) n

/-- `iterate_fc` detects an escape iff some orbit point checked by the
loop (indices `0 .. max_iter`) has magnitude above the threshold. -/
def escapes (c z0 : CQ) (max_iter : ℤ) : Prop :=
  ∃ k : ℕ, (k : ℤ) ≤ max_iter ∧ 4 < (orbit c z0 k).normSq

instance (c z0 : CQ) (max_iter : ℤ) : Decidable (escapes c z0 max_iter) := by
  unfold escapes
  by_cases h : 0 ≤ max_iter
  · exact decidable_of_iff
      (∃ k < max_iter.toNat + 1, 4 < (orbit c z0 k).normSq)
      (by
        constructor
        · rintro ⟨k, hk, h4⟩
          exact ⟨k, by omega, h4⟩
        · rintro ⟨k, hk, h4⟩
          exact ⟨k, by omega, h4⟩)
  · exact .isFalse (by rintro ⟨k, hk, -⟩; omega)

theorem orbit_zero (c z : CQ) : orbit c z 0 = z := rfl

theorem orbit_step (c z : CQ) (n : ℕ) : orbit c z (n + 1) = orbit c (z * z + c) n :=
  rfl

theorem orbit_succ_apply (c z : CQ) (n : ℕ) :
    orbit c z (n + 1) = orbit c z n * orbit c z n + c := by
  induction n generalizing z with
  | zero => rfl
  | succ n ih => rw [orbit_step, ih, orbit_step]

theorem iterateGo_eq_specGo (c : CQ) (M : ℤ) :
    ∀ (fuel : ℕ) (iters : ℤ) (z : CQ) (fc : List CQ),
      iterateGo c M fuel iters z fc = specEvaluateGo c M fuel iters z fc := by
  intro fuel
  induction fuel with
  | zero => intro iters z fc; rfl
  | succ fuel ih =>
    intro iters z fc
    simp only [iterateGo, specEvaluateGo]
    split
    · rfl
    · exact ih _ _ _

/-- The trajectory suffix appended by `k` non-escaping passes starting
from the current value `z`. -/
def trajFrom (c z : CQ) (k : ℕ) : List CQ :=
  (List.range k).map fun j => orbit c z (j + 1)

theorem trajFrom_zero (c z : CQ) : trajFrom c z 0 = [] := rfl

theorem trajFrom_succ_shift (c z : CQ) (k : ℕ) :
    trajFrom c z (k + 1) = (z * z + c) :: trajFrom c (z * z + c) k := by
  unfold trajFrom
  rw [List.range_succ_eq_map, List.map_cons, List.map_map]
  rfl

theorem cons_trajFrom (c z : CQ) (k : ℕ) :
    z :: trajFrom c z k = (List.range (k + 1)).map (orbit c z) := by
  unfold trajFrom
  rw [List.range_succ_eq_map, List.map_cons, List.map_map]
  rfl

theorem iterateGo_no_escape (c : CQ) (M : ℤ) :
    ∀ (fuel : ℕ) (iters : ℤ) (z : CQ) (fc : List CQ),
      (∀ k < fuel, (orbit c z k).normSq ≤ 4) →
      iterateGo c M fuel iters z fc = (M, fc ++ trajFrom c z fuel) := by
  intro fuel
  induction fuel with
  | zero => intro iters z fc _; simp [iterateGo, trajFrom_zero]
  | succ fuel ih =>
    intro iters z fc hb
    have h0 : (orbit c z 0).normSq ≤ 4 := hb 0 (by omega)
    rw [orbit_zero] at h0
    simp only [iterateGo, if_neg (not_lt.mpr h0)]
    rw [ih (iters + 1) (z * z + c) (fc ++ [z * z + c])
      (fun k hk => by rw [← orbit_step]; exact hb (k + 1) (by omega))]
    rw [trajFrom_succ_shift, List.append_assoc]
    rfl

theorem iterateGo_escape (c : CQ) (M : ℤ) :
    ∀ (e fuel : ℕ) (iters : ℤ) (z : CQ) (fc : List CQ),
      e < fuel → 4 < (orbit c z e).normSq →
      (∀ k < e, (orbit c z k).normSq ≤ 4) →
      iterateGo c M fuel iters z fc = (iters + e, fc ++ trajFrom c z e) := by
  intro e
  induction e with
  | zero =>
    intro fuel iters z fc hlt h4 _
    obtain ⟨fuel, rfl⟩ : ∃ f, fuel = f + 1 := ⟨fuel - 1, by omega⟩
    rw [orbit_zero] at h4
    simp [iterateGo, if_pos h4, trajFrom_zero]
  | succ e ih =>
    intro fuel iters z fc hlt h4 hb
    obtain ⟨fuel, rfl⟩ : ∃ f, fuel = f + 1 := ⟨fuel - 1, by omega⟩
    have h0 : (orbit c z 0).normSq ≤ 4 := hb 0 (by omega)
    rw [orbit_zero] at h0
    simp only [iterateGo, if_neg (not_lt.mpr h0)]
    rw [ih fuel (iters + 1) (z * z + c) (fc ++ [z * z + c]) (by omega)
      (by rw [← orbit_step]; exact h4)
      (fun k hk => by rw [← orbit_step]; exact hb (k + 1) (by omega))]
    rw [trajFrom_succ_shift, List.append_assoc]
    have harr : iters + 1 + (e : ℤ) = iters + ((e + 1 : ℕ) : ℤ) := by
      push_cast
      ring
    rw [harr]
    rfl

theorem iterate_fc_of_not_escape (c z0 : CQ) (M : ℤ) (hM : 0 ≤ M)
    (h : ¬ escapes c z0 M) :
    iterate_fc c z0 M =
      (M, (List.range ((M + 1).toNat + 1)).map (orbit c z0)) := by
  unfold iterate_fc
  rw [iterateGo_no_escape c M ((M + 1).toNat) 0 z0 [z0] (fun k hk => by
    by_contra h4
    exact h ⟨k, by omega, lt_of_not_le h4⟩)]
  rw [List.singleton_append, cons_trajFrom]

theorem iterate_fc_of_escape (c z0 : CQ) (M : ℤ) (hM : 0 ≤ M)
    (h : escapes c z0 M) :
    ∃ e : ℕ, (e : ℤ) ≤ M ∧ 4 < (orbit c z0 e).normSq ∧
      (∀ k < e, (orbit c z0 k).normSq ≤ 4) ∧
      iterate_fc c z0 M = ((e : ℤ), (List.range (e + 1)).map (orbit c z0)) := by
  classical
  obtain ⟨e, he⟩ := h
  have hex : ∃ k : ℕ, (k : ℤ) ≤ M ∧ 4 < (orbit c z0 k).normSq := ⟨e, he⟩
  refine ⟨Nat.find hex, (Nat.find_spec hex).1, (Nat.find_spec hex).2, ?_, ?_⟩
  · intro k hk
    by_contra h4
    exact Nat.find_min hex hk
      ⟨le_trans (by exact_mod_cast Nat.le_of_lt hk) (Nat.find_spec hex).1,
        lt_of_not_le h4⟩
  · unfold iterate_fc
    rw [iterateGo_escape c M (Nat.find hex) ((M + 1).toNat) 0 z0 [z0]
      (by have := (Nat.find_spec hex).1; omega)
      (Nat.find_spec hex).2
      (fun k hk => by
        by_contra h4
        exact Nat.find_min hex hk
          ⟨le_trans (by exact_mod_cast Nat.le_of_lt hk) (Nat.find_spec hex).1,
            lt_of_not_le h4⟩)]
    rw [List.singleton_append, cons_trajFrom, zero_add]

theorem iterateGo_fst_bounds (c : CQ) (M : ℤ) :
    ∀ (fuel : ℕ) (iters : ℤ) (z : CQ) (fc : List CQ),
      0 ≤ iters → iters + fuel = M + 1 → 0 ≤ M →
      0 ≤ (iterateGo c M fuel iters z fc).1 ∧
        (iterateGo c M fuel iters z fc).1 ≤ M := by
  intro fuel
  induction fuel with
  | zero => intro iters z fc _ _ hM; simp only [iterateGo]; omega
  | succ fuel ih =>
    intro iters z fc h0 hsum hM
    simp only [iterateGo]
    split
    · constructor <;> simp <;> omega
    · exact ih (iters + 1) _ _ (by omega) (by omega) hM

theorem iterate_fc_fst_bounds (c z0 : CQ) (M : ℤ) (hM : 0 ≤ M) :
    0 ≤ (iterate_fc c z0 M).1 ∧ (iterate_fc c z0 M).1 ≤ M := by
  unfold iterate_fc
  exact iterateGo_fst_bounds c M ((M + 1).toNat) 0 z0 [z0] le_rfl (by omega) hM

theorem chain_orbit_range (c z0 : CQ) (n : ℕ) :
    List.Chain' (fun a b => b = a * a + c) ((List.range n).map (orbit c z0)) := by
  rw [List.chain'_map]
  cases n with
  | zero => simp
  | succ n =>
    rw [List.chain'_range_succ]
    intro m _
    exact orbit_succ_apply c z0 m

theorem mapM_div_some (a t b : ℚ) (hb : b ≠ 0) (l : List ℕ) :
    (l.mapM fun step => do
        let d ← divOpt ((step : ℚ) * t) b
        pure (a + d)) =
      some (l.map fun (step : ℕ) => a + (step : ℚ) * t / b) := by
  induction l with
  | nil => rfl
  | cons x xs ih =>
    rw [List.mapM_cons, ih]
    simp [divOpt, hb]

theorem mapM_div_none (a t b : ℚ) (hb : b = 0) (x : ℕ) (xs : List ℕ) :
    ((x :: xs).mapM fun step => do
        let d ← divOpt ((step : ℚ) * t) b
        pure (a + d)) = none := by
  rw [List.mapM_cons]
  simp [divOpt, hb]

theorem length_flatMap_grid (ysL xsL : List ℚ) :
    (ysL.flatMap fun y => xsL.map fun x => CQ.mk x y).length =
      ysL.length * xsL.length := by
  induction ysL with
  | nil => simp
  | cons y ys ih =>
    simp only [List.flatMap_cons, List.length_append, List.length_map, ih,
      List.length_cons]
    ring

theorem getElem_flatMap_grid (ysL xsL : List ℚ) (i j : ℕ)
    (hi : i < ysL.length) (hj : j < xsL.length) :
    (ysL.flatMap fun y => xsL.map fun x => CQ.mk x y)[i * xsL.length + j]? =
      xsL[j]?.bind fun x => ysL[i]?.map fun y => CQ.mk x y := by
  induction ysL generalizing i with
  | nil => simp at hi
  | cons y ys ih =>
    cases i with
    | zero =>
      rw [List.flatMap_cons]
      rw [List.getElem?_append_left (by simpa using hj)]
      simp [List.getElem?_eq_getElem hj]
    | succ i =>
      rw [List.flatMap_cons]
      rw [List.getElem?_append_right (by simp; nlinarith)]
      have harith : (i + 1) * xsL.length + j - (xsL.map fun x => CQ.mk x y).length
          = i * xsL.length + j := by
        simp only [List.length_map]
        have : (i + 1) * xsL.length = i * xsL.length + xsL.length := by ring
        omega
      rw [harith]
      rw [ih i (by simpa using hi)]
      simp

theorem cast_sub_one_ne (n : ℕ) (h : n ≠ 1) : ((n : ℚ) - 1) ≠ 0 :=
  sub_ne_zero.mpr (by exact_mod_cast h)

theorem make_coordinates_eq_some (x_range y_range : ℚ × ℚ)
    (x_steps y_steps : ℕ) (hx : ((x_steps : ℚ) - 1) ≠ 0)
    (hy : ((y_steps : ℚ) - 1) ≠ 0) :
    make_coordinates x_range y_range x_steps y_steps =
      some (((List.range y_steps).map fun (step : ℕ) =>
          y_range.1 + (step : ℚ) * (y_range.2 - y_range.1) / ((y_steps : ℚ) - 1)).flatMap
        fun y => ((List.range x_steps).map fun (step : ℕ) =>
          x_range.1 + (step : ℚ) * (x_range.2 - x_range.1) / ((x_steps : ℚ) - 1)).map
        fun x => CQ.mk x y) := by
  simp only [make_coordinates]
  rw [mapM_div_some _ _ _ hx, mapM_div_some _ _ _ hy]
  rfl

theorem make_coordinates_x_one (x_range y_range : ℚ × ℚ) (y_steps : ℕ) :
    make_coordinates x_range y_range 1 y_steps = none := by
  simp only [make_coordinates]
  have h : List.range 1 = [0] := rfl
  rw [h, mapM_div_none _ _ _ (by norm_num)]
  rfl

theorem make_coordinates_y_one (x_range y_range : ℚ × ℚ) (x_steps : ℕ)
    (hx : ((x_steps : ℚ) - 1) ≠ 0) :
    make_coordinates x_range y_range x_steps 1 = none := by
  simp only [make_coordinates]
  rw [mapM_div_some _ _ _ hx]
  have h : List.range 1 = [0] := rfl
  rw [h, mapM_div_none _ _ _ (by norm_num)]
  rfl

/-- C1: for every `c`, every `initial_z` and every integer
`max_iter ≥ 0`, `iterate_fc` returns exactly what the reference
check-before-step loop of spec section 4.1 returns, and when an escape is
detected the returned count is the number of successful (non-escaping)
applications completed before detection, i.e. the trajectory length minus
one. -/
theorem iterate_fc_matches_spec_loop (c initial_z : CQ) (max_iter : ℤ)
    (hM : 0 ≤ max_iter) :
    iterate_fc c initial_z max_iter = specEvaluate c initial_z max_iter ∧
    (escapes c initial_z max_iter →
      ((iterate_fc c initial_z max_iter).2.length : ℤ) =
        (iterate_fc c initial_z max_iter).1 + 1) := by
  constructor
  · unfold iterate_fc specEvaluate
    exact iterateGo_eq_specGo c max_iter _ _ _ _
  · intro h
    obtain ⟨e, -, -, -, heq⟩ := iterate_fc_of_escape c initial_z max_iter hM h
    rw [heq]
    simp

theorem iterate_fc_matches_spec_loop_witness :
    iterate_fc ⟨10, 0⟩ ⟨0, 0⟩ 2 = specEvaluate ⟨10, 0⟩ ⟨0, 0⟩ 2 :=
  (iterate_fc_matches_spec_loop ⟨10, 0⟩ ⟨0, 0⟩ 2 (by decide)).1

/-- An explicit output path supplied by the caller in the C2 scenario. -/
def suppliedPath : String := "out.png"

/-- A sample timestamp for the C2 scenario. -/
def sampleStamp : String := "2026-10-12___10-30-00"

/-- C2: the code violates this claim.  `make_figure`
(src/Mandelbrot_001.py line 169) calls `save_figure` without forwarding
its `fname` argument, so even with an explicit supplied path the image
sink receives the timestamp-derived default path rather than the
caller's path, although `save_figure` itself would have used a supplied
path verbatim. -/
theorem make_figure_drops_fname :
    make_figure_dest (some suppliedPath) sampleStamp =
      "images/Mandelbrot_001___2026-10-12___10-30-00.png" ∧
    make_figure_dest (some suppliedPath) sampleStamp ≠ suppliedPath ∧
    save_figure_dest (some suppliedPath) sampleStamp = suppliedPath := by
  refine ⟨rfl, ?_, rfl⟩
  decide

/-- C9: for every `c`, every `initial_z` and every integer
`max_iter < 0`, the loop guard `iters <= max_iter` fails at once, so
`iterate_fc` performs no application of the recurrence and returns
`(max_iter, [initial_z])`; in particular the returned escape iteration is
negative. -/
theorem iterate_fc_negative_max_iter (c initial_z : CQ) (max_iter : ℤ)
    (hM : max_iter < 0) :
    iterate_fc c initial_z max_iter = (max_iter, [initial_z]) ∧
    (iterate_fc c initial_z max_iter).1 < 0 := by
  have hfuel : (max_iter + 1).toNat = 0 := by omega
  have h1 : iterate_fc c initial_z max_iter = (max_iter, [initial_z]) := by
    unfold iterate_fc
    rw [hfuel]
    rfl
  exact ⟨h1, by rw [h1]; exact hM⟩

theorem iterate_fc_negative_max_iter_witness :
    iterate_fc ⟨5, 7⟩ ⟨1, 2⟩ (-1) = (-1, [⟨1, 2⟩]) ∧
    (iterate_fc ⟨5, 7⟩ ⟨1, 2⟩ (-1)).1 < 0 :=
  iterate_fc_negative_max_iter ⟨5, 7⟩ ⟨1, 2⟩ (-1) (by decide)

/-- C3 counterexample: at `c = 10 + 0i`, `initial_z = 0`, `max_iter = 1`
all hypotheses of the claim hold (`|initial_z| ≤ 2`, `max_iter ≥ 0`, and
the orbit diverges immediately since `|initial_z² + c| > 2`), yet
`iterate_fc` returns escape iteration `1`, not `0`. -/
theorem iterate_fc_immediate_divergence_cex :
    (CQ.mk 0 0).normSq ≤ 4 ∧ (0 : ℤ) ≤ 1 ∧
    4 < (CQ.mk 0 0 * CQ.mk 0 0 + CQ.mk 10 0).normSq ∧
    (iterate_fc ⟨10, 0⟩ ⟨0, 0⟩ 1).1 = 1 ∧
    (iterate_fc ⟨10, 0⟩ ⟨0, 0⟩ 1).1 ≠ 0 := by
  refine ⟨?_, by decide, ?_, ?_, ?_⟩ <;> with_unfolding_all decide

/-- C3 amended: for every `initial_z` with `|initial_z| ≤ 2`, every
`max_iter ≥ 0` and every `c` with `|initial_z² + c| > 2`, `iterate_fc`
returns escape iteration `min 1 max_iter`: the check before the first
application passes, the application producing the escaping value is
counted, and the escape is detected at the next check, so the result is
`1` whenever `max_iter ≥ 1` and `0` when `max_iter = 0`. -/
theorem iterate_fc_immediate_divergence (c initial_z : CQ) (max_iter : ℤ)
    (hz : initial_z.normSq ≤ 4) (hc : 4 < (initial_z * initial_z + c).normSq)
    (hM : 0 ≤ max_iter) :
    (iterate_fc c initial_z max_iter).1 = min 1 max_iter := by
  rcases eq_or_lt_of_le hM with h0 | h1
  · unfold iterate_fc
    have hfuel : (max_iter + 1).toNat = 1 := by omega
    rw [hfuel]
    simp only [iterateGo, if_neg (not_lt.mpr hz)]
    omega
  · unfold iterate_fc
    have hfuel : (max_iter + 1).toNat = (max_iter - 1).toNat + 2 := by omega
    rw [hfuel]
    simp only [iterateGo, if_neg (not_lt.mpr hz), if_pos hc]
    omega

theorem iterate_fc_immediate_divergence_witness :
    (iterate_fc ⟨10, 0⟩ ⟨0, 0⟩ 1).1 = min 1 1 :=
  iterate_fc_immediate_divergence ⟨10, 0⟩ ⟨0, 0⟩ 1
    (by with_unfolding_all decide) (by with_unfolding_all decide) (by decide)

/-- C4 counterexample: at `c = 0`, `initial_z = 0`, `max_iter = 0` the
returned escape iteration is `0` as claimed, but the trajectory holds two
zeros (`[0, 0]`), not `max_iter + 1 = 1`: the single non-escaping pass
appends one element to the initial one-element trajectory. -/
theorem iterate_fc_zero_orbit_cex :
    (iterate_fc ⟨0, 0⟩ ⟨0, 0⟩ 0).1 = 0 ∧
    (iterate_fc ⟨0, 0⟩ ⟨0, 0⟩ 0).2 = [⟨0, 0⟩, ⟨0, 0⟩] ∧
    (iterate_fc ⟨0, 0⟩ ⟨0, 0⟩ 0).2.length ≠ 0 + 1 := by
  refine ⟨?_, ?_, ?_⟩ <;> with_unfolding_all decide

theorem orbit_zero_fixed : ∀ k : ℕ, orbit ⟨0, 0⟩ ⟨0, 0⟩ k = ⟨0, 0⟩ := by
  intro k
  induction k with
  | zero => rfl
  | succ k ih =>
    rw [orbit_succ_apply, ih]
    show CQ.mk (0 * 0 - 0 * 0 + 0) (0 * 0 + 0 * 0 + 0) = CQ.mk 0 0
    congr 1 <;> norm_num

/-- C4 amended: for every integer `M ≥ 0`,
`iterate_fc (c = 0) (initial_z = 0) (max_iter = M)` returns escape
iteration `M` and a trajectory of exactly `M + 2` zeros (the initial
zero plus one appended zero per each of the `M + 1` loop passes). -/
theorem iterate_fc_zero_orbit (M : ℤ) (hM : 0 ≤ M) :
    (iterate_fc ⟨0, 0⟩ ⟨0, 0⟩ M).1 = M ∧
    (iterate_fc ⟨0, 0⟩ ⟨0, 0⟩ M).2 = List.replicate (M.toNat + 2) ⟨0, 0⟩ := by
  have hesc : ¬ escapes ⟨0, 0⟩ ⟨0, 0⟩ M := by
    rintro ⟨k, -, h4⟩
    rw [orbit_zero_fixed k] at h4
    norm_num [CQ.normSq] at h4
  have h := iterate_fc_of_not_escape ⟨0, 0⟩ ⟨0, 0⟩ M hM hesc
  rw [h]
  refine ⟨rfl, ?_⟩
  have hmap : ∀ n : ℕ, (List.range n).map (orbit ⟨0, 0⟩ ⟨0, 0⟩) =
      List.replicate n ⟨0, 0⟩ := by
    intro n
    rw [List.eq_replicate_iff]
    refine ⟨by simp, ?_⟩
    intro b hb
    obtain ⟨k, -, rfl⟩ := List.mem_map.mp hb
    exact orbit_zero_fixed k
  show (List.range ((M + 1).toNat + 1)).map (orbit ⟨0, 0⟩ ⟨0, 0⟩) =
    List.replicate (M.toNat + 2) ⟨0, 0⟩
  rw [hmap]
  congr 1
  omega

theorem iterate_fc_zero_orbit_witness :
    (iterate_fc ⟨0, 0⟩ ⟨0, 0⟩ 3).1 = 3 ∧
    (iterate_fc ⟨0, 0⟩ ⟨0, 0⟩ 3).2 = List.replicate ((3 : ℤ).toNat + 2) ⟨0, 0⟩ :=
  iterate_fc_zero_orbit 3 (by decide)

theorem make_coordinates_some_len (x_range y_range : ℚ × ℚ)
    (x_steps y_steps : ℕ) (hx : 2 ≤ x_steps) (hy : 2 ≤ y_steps) :
    ∃ l : List CQ, make_coordinates x_range y_range x_steps y_steps = some l ∧
      l.length = x_steps * y_steps := by
  refine ⟨_, make_coordinates_eq_some x_range y_range x_steps y_steps
    (cast_sub_one_ne x_steps (by omega)) (cast_sub_one_ne y_steps (by omega)), ?_⟩
  rw [length_flatMap_grid]
  simp [Nat.mul_comm]

/-- C5: for every `x_range = (x0, x1)`, `y_range = (y0, y1)` and integers
`x_steps ≥ 2`, `y_steps ≥ 2`, `make_coordinates` succeeds with a list of
length `x_steps * y_steps` in row-major order (y outer, x inner): element
`i * x_steps + j` is the complex number with real part
`x0 + j * (x1 - x0) / (x_steps - 1)` and imaginary part
`y0 + i * (y1 - y0) / (y_steps - 1)`. -/
theorem make_coordinates_row_major_grid (x_range y_range : ℚ × ℚ)
    (x_steps y_steps : ℕ) (hx : 2 ≤ x_steps) (hy : 2 ≤ y_steps) :
    ∃ l : List CQ, make_coordinates x_range y_range x_steps y_steps = some l ∧
      l.length = x_steps * y_steps ∧
      ∀ i j : ℕ, i < y_steps → j < x_steps →
        l[i * x_steps + j]? = some
          ⟨x_range.1 + (j : ℚ) * (x_range.2 - x_range.1) / ((x_steps : ℚ) - 1),
            y_range.1 + (i : ℚ) * (y_range.2 - y_range.1) / ((y_steps : ℚ) - 1)⟩ := by
  refine ⟨_, make_coordinates_eq_some x_range y_range x_steps y_steps
    (cast_sub_one_ne x_steps (by omega)) (cast_sub_one_ne y_steps (by omega)),
    ?_, ?_⟩
  · rw [length_flatMap_grid]
    simp [Nat.mul_comm]
  · intro i j hi hj
    have hi' : i < ((List.range y_steps).map fun step : ℕ =>
        y_range.1 + (step : ℚ) * (y_range.2 - y_range.1) / ((y_steps : ℚ) - 1)).length := by
      simpa using hi
    have hj' : j < ((List.range x_steps).map fun step : ℕ =>
        x_range.1 + (step : ℚ) * (x_range.2 - x_range.1) / ((x_steps : ℚ) - 1)).length := by
      simpa using hj
    have h := getElem_flatMap_grid _ _ i j hi' hj'
    rw [List.length_map, List.length_range] at h
    rw [h]
    simp [List.getElem?_range, hi, hj]

theorem make_coordinates_row_major_grid_witness :
    (∃ l : List CQ, make_coordinates (-1, 1) (-1, 1) 3 3 = some l ∧
      l.length = 3 * 3 ∧
      ∀ i j : ℕ, i < 3 → j < 3 →
        l[i * 3 + j]? = some
          ⟨(-1 : ℚ) + (j : ℚ) * (1 - (-1)) / ((3 : ℚ) - 1),
            (-1 : ℚ) + (i : ℚ) * (1 - (-1)) / ((3 : ℚ) - 1)⟩) ∧
    make_coordinates (-1, 1) (-1, 1) 3 3 =
      some [⟨-1, -1⟩, ⟨0, -1⟩, ⟨1, -1⟩, ⟨-1, 0⟩, ⟨0, 0⟩, ⟨1, 0⟩,
        ⟨-1, 1⟩, ⟨0, 1⟩, ⟨1, 1⟩] :=
  ⟨make_coordinates_row_major_grid (-1, 1) (-1, 1) 3 3 (by decide) (by decide),
    by with_unfolding_all rfl⟩

/-- C6: for every region, integers `x_steps ≥ 2`, `y_steps ≥ 2` and
`max_iter ≥ 0`, `make_set` succeeds with two sequences of equal length
`x_steps * y_steps`: the coordinates are exactly the output of
`make_coordinates` on the same arguments, and entry `i` of the iteration
counts is the escape-iteration component of `iterate_fc` applied to
coordinate `i` with `initial_z = 0` and the given `max_iter`. -/
theorem make_set_index_aligned (x_range y_range : ℚ × ℚ)
    (x_steps y_steps : ℕ) (max_iter : ℤ)
    (hx : 2 ≤ x_steps) (hy : 2 ≤ y_steps) (_hM : 0 ≤ max_iter) :
    ∃ cs : List CQ,
      make_coordinates x_range y_range x_steps y_steps = some cs ∧
      make_set x_range y_range x_steps y_steps max_iter =
        some (cs, cs.map fun c => (iterate_fc c ⟨0, 0⟩ max_iter).1) ∧
      cs.length = x_steps * y_steps ∧
      (cs.map fun c => (iterate_fc c ⟨0, 0⟩ max_iter).1).length =
        x_steps * y_steps ∧
      ∀ i : ℕ, (cs.map fun c => (iterate_fc c ⟨0, 0⟩ max_iter).1)[i]? =
        cs[i]?.map fun c => (iterate_fc c ⟨0, 0⟩ max_iter).1 := by
  obtain ⟨cs, hcs, hlen⟩ :=
    make_coordinates_some_len x_range y_range x_steps y_steps hx hy
  refine ⟨cs, hcs, ?_, hlen, by simp [hlen], fun i => by simp⟩
  unfold make_set
  rw [hcs]
  rfl

theorem make_set_index_aligned_witness :
    ∃ cs : List CQ,
      make_coordinates (-1, 1) (-1, 1) 2 2 = some cs ∧
      make_set (-1, 1) (-1, 1) 2 2 5 =
        some (cs, cs.map fun c => (iterate_fc c ⟨0, 0⟩ 5).1) ∧
      cs.length = 2 * 2 ∧
      (cs.map fun c => (iterate_fc c ⟨0, 0⟩ 5).1).length = 2 * 2 ∧
      ∀ i : ℕ, (cs.map fun c => (iterate_fc c ⟨0, 0⟩ 5).1)[i]? =
        cs[i]?.map fun c => (iterate_fc c ⟨0, 0⟩ 5).1 :=
  make_set_index_aligned (-1, 1) (-1, 1) 2 2 5 (by decide) (by decide) (by decide)

/-- C7: for every `c`, `initial_z` and integer `max_iter ≥ 0`, the escape
iteration returned by `iterate_fc` lies in `[0, max_iter]`, and
consequently every value in the iteration-count sequence produced by
`make_set` is a non-negative integer bounded by `max_iter`. -/
theorem escape_iteration_bounded :
    (∀ (c initial_z : CQ) (max_iter : ℤ), 0 ≤ max_iter →
      0 ≤ (iterate_fc c initial_z max_iter).1 ∧
        (iterate_fc c initial_z max_iter).1 ≤ max_iter) ∧
    (∀ (x_range y_range : ℚ × ℚ) (x_steps y_steps : ℕ) (max_iter : ℤ)
        (p : List CQ × List ℤ), 0 ≤ max_iter →
      make_set x_range y_range x_steps y_steps max_iter = some p →
      ∀ v ∈ p.2, 0 ≤ v ∧ v ≤ max_iter) := by
  refine ⟨fun c z0 M hM => iterate_fc_fst_bounds c z0 M hM, ?_⟩
  intro xr yr xs ys M p hM hp v hv
  unfold make_set at hp
  cases hmc : make_coordinates xr yr xs ys with
  | none =>
    rw [hmc] at hp
    exact absurd hp (by simp)
  | some cs =>
    rw [hmc] at hp
    simp only [Option.some_bind] at hp
    injection hp with hp
    subst hp
    obtain ⟨c, -, rfl⟩ := List.mem_map.mp hv
    exact iterate_fc_fst_bounds c ⟨0, 0⟩ M hM

theorem escape_iteration_bounded_witness :
    0 ≤ (iterate_fc ⟨10, 0⟩ ⟨0, 0⟩ 5).1 ∧ (iterate_fc ⟨10, 0⟩ ⟨0, 0⟩ 5).1 ≤ 5 :=
  escape_iteration_bounded.1 ⟨10, 0⟩ ⟨0, 0⟩ 5 (by decide)

/-- C8: under the precondition `x_steps ≥ 2` and `y_steps ≥ 2` every
division performed by `make_coordinates` has a nonzero divisor, so the
computation succeeds (the division-by-zero branch is unreachable), while
for `x_steps = 1` or `y_steps = 1` the spacing formula divides by zero
and the computation fails. -/
theorem make_coordinates_division_safety (x_range y_range : ℚ × ℚ)
    (x_steps y_steps : ℕ) :
    (2 ≤ x_steps → 2 ≤ y_steps →
      (make_coordinates x_range y_range x_steps y_steps).isSome) ∧
    (x_steps = 1 ∨ y_steps = 1 →
      make_coordinates x_range y_range x_steps y_steps = none) := by
  constructor
  · intro hx hy
    rw [make_coordinates_eq_some x_range y_range x_steps y_steps
      (cast_sub_one_ne x_steps (by omega)) (cast_sub_one_ne y_steps (by omega))]
    rfl
  · rintro (rfl | rfl)
    · exact make_coordinates_x_one x_range y_range y_steps
    · by_cases hx1 : x_steps = 1
      · subst hx1
        exact make_coordinates_x_one x_range y_range 1
      · exact make_coordinates_y_one x_range y_range x_steps
          (cast_sub_one_ne x_steps hx1)

theorem make_coordinates_division_safety_witness :
    (make_coordinates (-1, 1) (-1, 1) 2 2).isSome ∧
    make_coordinates (-1, 1) (-1, 1) 1 5 = none :=
  ⟨(make_coordinates_division_safety (-1, 1) (-1, 1) 2 2).1 (by decide) (by decide),
    (make_coordinates_division_safety (-1, 1) (-1, 1) 1 5).2 (Or.inl rfl)⟩

/-- C10: for every `c`, `initial_z` and integer `max_iter ≥ 0`, the
trajectory returned by `iterate_fc` starts with `initial_z`, every
consecutive pair obeys the recurrence `next = prev * prev + c`, and its
length is `escape_iteration + 1` when the point escapes and
`max_iter + 2` when it does not. -/
theorem iterate_fc_trajectory_invariants (c initial_z : CQ) (max_iter : ℤ)
    (hM : 0 ≤ max_iter) :
    (iterate_fc c initial_z max_iter).2.head? = some initial_z ∧
    List.Chain' (fun a b => b = a * a + c) (iterate_fc c initial_z max_iter).2 ∧
    (escapes c initial_z max_iter →
      ((iterate_fc c initial_z max_iter).2.length : ℤ) =
        (iterate_fc c initial_z max_iter).1 + 1) ∧
    (¬ escapes c initial_z max_iter →
      ((iterate_fc c initial_z max_iter).2.length : ℤ) = max_iter + 2) := by
  by_cases h : escapes c initial_z max_iter
  · obtain ⟨e, -, -, -, heq⟩ := iterate_fc_of_escape c initial_z max_iter hM h
    rw [heq]
    refine ⟨?_, chain_orbit_range c initial_z (e + 1), fun _ => ?_, fun h' => absurd h h'⟩
    · rw [List.range_succ_eq_map]
      simp [orbit_zero]
    · simp
  · have heq := iterate_fc_of_not_escape c initial_z max_iter hM h
    rw [heq]
    refine ⟨?_, chain_orbit_range c initial_z _, fun h' => absurd h' h, fun _ => ?_⟩
    · rw [List.range_succ_eq_map]
      simp [orbit_zero]
    · simp
      omega

theorem iterate_fc_trajectory_invariants_witness :
    (iterate_fc ⟨10, 0⟩ ⟨0, 0⟩ 2).2.head? = some ⟨0, 0⟩ ∧
    List.Chain' (fun a b => b = a * a + ⟨10, 0⟩) (iterate_fc ⟨10, 0⟩ ⟨0, 0⟩ 2).2 ∧
    (escapes ⟨10, 0⟩ ⟨0, 0⟩ 2 →
      ((iterate_fc ⟨10, 0⟩ ⟨0, 0⟩ 2).2.length : ℤ) =
        (iterate_fc ⟨10, 0⟩ ⟨0, 0⟩ 2).1 + 1) ∧
    (¬ escapes ⟨10, 0⟩ ⟨0, 0⟩ 2 →
      ((iterate_fc ⟨10, 0⟩ ⟨0, 0⟩ 2).2.length : ℤ) = 2 + 2) :=
  iterate_fc_trajectory_invariants ⟨10, 0⟩ ⟨0, 0⟩ 2 (by decide)
